import Mathlib

set_option maxRecDepth 16000

/- Verification of the clamp-cast library (clamp-cast.hpp): a saturating
conversion from a binary floating-point type `From` to a binary integer type
`To`.  Floating-point values are modelled shallowly: a value is not-a-number,
an infinity, negative zero, or a finite value identified with the rational
number it denotes.  A floating-point format is described by the
numeric-limits data the source queries (mantissa digits, extremal binary
exponents); an integer destination type is described by its signedness and
its count of value bits.  Machine comparisons and the multiplication by two
used by the source are given IEEE semantics on this model. -/

/-- Description of a binary (radix-2) IEEE floating-point format.  The fields
mirror the numeric-limits queries used by the source: `prec` is
`std::numeric_limits<From>::digits` (the count of mantissa digits including
the implicit leading bit), `max_exponent` and `min_exponent` are the
numeric-limits members of the same names. -/
structure FloatFmt where
  prec : ℕ
  max_exponent : ℤ
  min_exponent : ℤ
  deriving DecidableEq

/-- A value of a binary floating-point format: not-a-number, one of the two
infinities, negative zero, or a finite value identified with the rational
number it denotes (positive zero is `finite 0`). -/
inductive FVal where
  | nan
  | posInf
  | negInf
  | negZero
  | finite (q : ℚ)
  deriving DecidableEq

/-- The rational power of two with an integer exponent, in executable form
(the bare integer power on `ℚ` does not evaluate by kernel reduction). -/
def qpow2 (n : ℤ) : ℚ :=
  if 0 ≤ n then (2 : ℚ) ^ n.toNat else ((2 : ℚ) ^ (-n).toNat)⁻¹

/-- The largest finite value of a format: `(2^prec - 1) * 2^(max_exponent - prec)`.
For single precision this is `(2^24 - 1) * 2^104`, the usual FLT_MAX. -/
def FloatFmt.maxFinite (fmt : FloatFmt) : ℚ :=
  ((2 : ℚ) ^ fmt.prec - 1) * qpow2 (fmt.max_exponent - (fmt.prec : ℤ))

/-- The finite rational numbers representable in a format: `m * 2^e` with a
mantissa `m` of fewer than `2^prec` in magnitude, exponent at least the
subnormal minimum, and total magnitude at most `maxFinite`. -/
def FloatFmt.isRepr (fmt : FloatFmt) (q : ℚ) : Prop :=
  |q| ≤ fmt.maxFinite ∧
    ∃ m e : ℤ, q = (m : ℚ) * (2 : ℚ) ^ e ∧ m.natAbs < 2 ^ fmt.prec ∧
      fmt.min_exponent - (fmt.prec : ℤ) ≤ e

/-- IEEE comparison `a < b`: false when either operand is not-a-number,
otherwise the numeric order, with negative zero equal to positive zero. -/
def flt : FVal → FVal → Bool
  | .nan, _ => false
  | _, .nan => false
  | .negInf, .negInf => false
  | .negInf, _ => true
  | _, .negInf => false
  | .posInf, _ => false
  | _, .posInf => true
  | .negZero, .negZero => false
  | .negZero, .finite r => decide ((0 : ℚ) < r)
  | .finite q, .negZero => decide (q < 0)
  | .finite q, .finite r => decide (q < r)

/-- IEEE comparison `a <= b`: false when either operand is not-a-number,
otherwise the numeric order, with negative zero equal to positive zero. -/
def fle : FVal → FVal → Bool
  | .nan, _ => false
  | _, .nan => false
  | .negInf, _ => true
  | _, .negInf => false
  | _, .posInf => true
  | .posInf, _ => false
  | .negZero, .negZero => true
  | .negZero, .finite r => decide ((0 : ℚ) ≤ r)
  | .finite q, .negZero => decide (q ≤ 0)
  | .finite q, .finite r => decide (q ≤ r)

/-- IEEE comparison `a >= b`, written `a >= b` in the source; equivalent to
`b <= a`. -/
def fge (a b : FVal) : Bool := fle b a

/-- IEEE equality `a == b`: false when either operand is not-a-number,
otherwise numeric equality, with negative zero equal to positive zero. -/
def feq : FVal → FVal → Bool
  | .nan, _ => false
  | _, .nan => false
  | .posInf, .posInf => true
  | .negInf, .negInf => true
  | .negZero, .negZero => true
  | .negZero, .finite r => decide (r = 0)
  | .finite q, .negZero => decide (q = 0)
  | .finite q, .finite r => decide (q = r)
  | _, _ => false

/-- IEEE inequality `a != b`: the negation of IEEE equality; in particular it
is true whenever either operand is not-a-number. -/
def fne (a b : FVal) : Bool := !(feq a b)

/-- Shallow embedding of `is_nan` (clamp-cast.hpp line 31): the source tests
`t != t`, which holds exactly for not-a-number values. -/
def is_nan (t : FVal) : Bool := fne t t

/-- IEEE multiplication of a value by two under round-to-nearest: doubling a
representable finite value is exact while the result stays within the largest
finite value, and overflows to the correspondingly signed infinity beyond it. -/
def mulTwo (fmt : FloatFmt) : FVal → FVal
  | .nan => .nan
  | .posInf => .posInf
  | .negInf => .negInf
  | .negZero => .negZero
  | .finite q =>
      if |2 * q| ≤ fmt.maxFinite then .finite (2 * q)
      else if q < 0 then .negInf else .posInf

/-- Shallow embedding of `detail::exp2` (clamp-cast.hpp line 11): starting
from 1.0, multiply by 2.0 `e` times (the loop of the source runs `exp` times
when `exp` is non-negative). -/
def exp2 (fmt : FloatFmt) : ℕ → FVal
  | 0 => .finite 1
  | e + 1 => mulTwo fmt (exp2 fmt e)

/-- Shallow embedding of `detail::exponent_bits` (clamp-cast.hpp line 21):
`std::numeric_limits<T>::max_exponent - 1`, the largest `k` with `2^k`
representable. -/
def exponent_bits (fmt : FloatFmt) : ℤ := fmt.max_exponent - 1

/-- IEEE negation.  Negating positive zero yields negative zero and
conversely. -/
def fneg : FVal → FVal
  | .nan => .nan
  | .posInf => .negInf
  | .negInf => .posInf
  | .negZero => .finite 0
  | .finite q => if q = 0 then .negZero else .finite (-q)

/-- Description of a binary integer destination type: its signedness and
`std::numeric_limits<To>::digits`, the count of value bits (for signed types
this excludes the sign bit). -/
structure IntDesc where
  signed : Bool
  bits : ℕ
  deriving DecidableEq

/-- Minimum representable value, `std::numeric_limits<To>::min()`:
`-2^bits` for a signed (twos-complement) type and `0` for an unsigned one. -/
def IntDesc.min (t : IntDesc) : ℤ := if t.signed then -(2 ^ t.bits) else 0

/-- Maximum representable value, `std::numeric_limits<To>::max()`:
`2^bits - 1`. -/
def IntDesc.max (t : IntDesc) : ℤ := 2 ^ t.bits - 1

/-- Shallow embedding of `lower_bound_inclusive` (clamp-cast.hpp line 38).
In the branch where the source format cannot represent `2^bits`, the C++
source names the static member function `std::numeric_limits<From>::lowest`
without calling it; the resulting expression has function type and does not
convert to `From`, so the instantiation is ill-formed.  That branch is
modelled as `none`. -/
def lower_bound_inclusive (t : IntDesc) (fmt : FloatFmt) : Option FVal :=
  if t.signed then
    if (t.bits : ℤ) ≤ exponent_bits fmt then some (fneg (exp2 fmt t.bits))
    else none
  else some (.finite 0)

/-- Shallow embedding of `upper_bound_exclusive` (clamp-cast.hpp line 57).
In the branch where the source format cannot represent `2^bits`, the C++
source names the static member function `std::numeric_limits<From>::infinity`
without calling it; the resulting expression has function type and does not
convert to `From`, so the instantiation is ill-formed.  That branch is
modelled as `none`. -/
def upper_bound_exclusive (t : IntDesc) (fmt : FloatFmt) : Option FVal :=
  if (t.bits : ℤ) ≤ exponent_bits fmt then some (exp2 fmt t.bits)
  else none

/-- Truncation of a rational number toward zero. -/
def qtrunc (q : ℚ) : ℤ := if 0 ≤ q then ⌊q⌋ else ⌈q⌉

/-- Shallow embedding of `static_cast<To>(value)` for a floating operand:
the fractional part is discarded (truncation toward zero); the behavior is
undefined when the truncated value cannot be represented in the destination
type, and for infinities and not-a-number, which is modelled as `none`. -/
def static_cast (t : IntDesc) : FVal → Option ℤ
  | .negZero => some 0
  | .finite q =>
      if t.min ≤ qtrunc q ∧ qtrunc q ≤ t.max then some (qtrunc q) else none
  | _ => none

/-- Shallow embedding of `clamp_cast` (clamp-cast.hpp line 79).  The result
is `none` only if a bound instantiation is ill-formed or the final truncating
conversion would be undefined behavior; the theorems below show neither
happens for supported type pairs. -/
def clamp_cast (t : IntDesc) (fmt : FloatFmt) (v : FVal) : Option ℤ :=
  match lower_bound_inclusive t fmt, upper_bound_exclusive t fmt with
  | some lo, some hi =>
      if is_nan v then some 0
      else if flt v lo then some t.min
      else if fge v hi then some t.max
      else static_cast t v
  | _, _ => none

/-- The four outcomes of the decision chain of `clamp_cast`. -/
inductive CastBranch where
  | nanZero
  | clampMin
  | clampMax
  | truncate
  deriving DecidableEq

/-- Which branch of the decision chain of `clamp_cast` fires for a given
input; same chain as `clamp_cast`, recording the branch instead of its
result. -/
def clamp_branch (t : IntDesc) (fmt : FloatFmt) (v : FVal) :
    Option CastBranch :=
  match lower_bound_inclusive t fmt, upper_bound_exclusive t fmt with
  | some lo, some hi =>
      if is_nan v then some .nanZero
      else if flt v lo then some .clampMin
      else if fge v hi then some .clampMax
      else some .truncate
  | _, _ => none

/-- The single-precision format: 24 mantissa digits, `max_exponent` 128,
`min_exponent` -125. -/
def floatFmt : FloatFmt := ⟨24, 128, -125⟩

/-- The destination description of `uint8_t`: unsigned, 8 value bits. -/
def u8 : IntDesc := ⟨false, 8⟩

/-- The destination description of `int8_t`: signed, 7 value bits. -/
def i8 : IntDesc := ⟨true, 7⟩

/-- The destination description of `int64_t`: signed, 63 value bits. -/
def i64 : IntDesc := ⟨true, 63⟩

/-- The value `b` is the representable value of the format immediately above
`a`: it is representable, above `a`, and no representable value lies between
(the meaning of `std::nextafter(a, +infinity)` used by the tests). -/
def nextAbove (fmt : FloatFmt) (a b : ℚ) : Prop :=
  fmt.isRepr b ∧ a < b ∧ ∀ q : ℚ, fmt.isRepr q → a < q → b ≤ q

/-- The value `b` is the representable value of the format immediately below
`a`: it is representable, below `a`, and no representable value lies between
(the meaning of `std::nextafter(a, -infinity)` used by the tests). -/
def nextBelow (fmt : FloatFmt) (a b : ℚ) : Prop :=
  fmt.isRepr b ∧ b < a ∧ ∀ q : ℚ, fmt.isRepr q → q < a → q ≤ b

/-- The executable power of two agrees with the integer power on `ℚ`. -/
theorem qpow2_eq (n : ℤ) : qpow2 n = (2 : ℚ) ^ n := by
  unfold qpow2
  by_cases h : 0 ≤ n
  · rw [if_pos h, ← zpow_natCast, Int.toNat_of_nonneg h]
  · rw [if_neg h, ← zpow_natCast, Int.toNat_of_nonneg (by omega : (0 : ℤ) ≤ -n),
      ← zpow_neg, neg_neg]

/-- The largest finite value, written with integer powers. -/
theorem maxFinite_eq (fmt : FloatFmt) :
    fmt.maxFinite
      = ((2 : ℚ) ^ fmt.prec - 1) * (2 : ℚ) ^ (fmt.max_exponent - (fmt.prec : ℤ)) := by
  rw [FloatFmt.maxFinite, qpow2_eq]

/-- Every power of two up to exponent `max_exponent - 1` is at most the
largest finite value of the format. -/
theorem two_zpow_le_maxFinite (fmt : FloatFmt) (hp : 1 ≤ fmt.prec) {k : ℤ}
    (hk : k ≤ fmt.max_exponent - 1) : (2 : ℚ) ^ k ≤ fmt.maxFinite := by
  rw [maxFinite_eq]
  refine (zpow_le_zpow_right₀ one_le_two hk).trans ?_
  have hpow : (2 : ℚ) ^ ((fmt.prec : ℤ) - 1) ≤ (2 : ℚ) ^ fmt.prec - 1 := by
    have h1 : (2 : ℚ) ^ ((fmt.prec : ℤ) - 1) = (2 : ℚ) ^ (fmt.prec - 1 : ℕ) := by
      rw [← zpow_natCast]
      congr 1
      omega
    have h2 : (2 : ℚ) ^ fmt.prec = (2 : ℚ) ^ (fmt.prec - 1 : ℕ) * 2 := by
      rw [← pow_succ]
      congr 1
      omega
    have h3 : (1 : ℚ) ≤ (2 : ℚ) ^ (fmt.prec - 1 : ℕ) := one_le_pow₀ one_le_two
    rw [h1, h2]
    linarith
  calc (2 : ℚ) ^ (fmt.max_exponent - 1)
      = (2 : ℚ) ^ ((fmt.prec : ℤ) - 1) * (2 : ℚ) ^ (fmt.max_exponent - (fmt.prec : ℤ)) := by
        rw [← zpow_add₀ (two_ne_zero : (2 : ℚ) ≠ 0)]
        congr 1
        ring
    _ ≤ ((2 : ℚ) ^ fmt.prec - 1) * (2 : ℚ) ^ (fmt.max_exponent - (fmt.prec : ℤ)) :=
        mul_le_mul_of_nonneg_right hpow (zpow_pos two_pos _).le

/-- The largest finite value is below `2 ^ max_exponent`. -/
theorem maxFinite_lt_two_zpow (fmt : FloatFmt) :
    fmt.maxFinite < (2 : ℚ) ^ fmt.max_exponent := by
  rw [maxFinite_eq]
  have h0 : (0 : ℚ) < (2 : ℚ) ^ (fmt.max_exponent - (fmt.prec : ℤ)) := zpow_pos two_pos _
  have h1 : ((2 : ℚ) ^ fmt.prec - 1) * (2 : ℚ) ^ (fmt.max_exponent - (fmt.prec : ℤ))
      < (2 : ℚ) ^ fmt.prec * (2 : ℚ) ^ (fmt.max_exponent - (fmt.prec : ℤ)) :=
    mul_lt_mul_of_pos_right (by linarith) h0
  refine h1.trans_le ?_
  rw [← zpow_natCast (2 : ℚ) fmt.prec, ← zpow_add₀ (two_ne_zero : (2 : ℚ) ≠ 0)]
  apply le_of_eq
  congr 1
  ring

/-- Exactness of `detail::exp2`: while the exponent stays within the range of
the format, the repeated doubling never rounds and yields exactly `2^e`. -/
theorem exp2_eq_pow (fmt : FloatFmt) (hp : 1 ≤ fmt.prec) (e : ℕ)
    (he : (e : ℤ) ≤ exponent_bits fmt) : exp2 fmt e = .finite ((2 : ℚ) ^ e) := by
  induction e with
  | zero => simp [exp2]
  | succ n ih =>
    have hn : (n : ℤ) ≤ exponent_bits fmt := by push_cast at he ⊢; omega
    rw [exp2, ih hn]
    simp only [mulTwo]
    have hle : |2 * (2 : ℚ) ^ n| ≤ fmt.maxFinite := by
      rw [abs_of_pos (by positivity)]
      have h1 : (2 : ℚ) * 2 ^ n = (2 : ℚ) ^ ((n + 1 : ℕ) : ℤ) := by
        rw [zpow_natCast, pow_succ]
        ring
      rw [h1]
      apply two_zpow_le_maxFinite fmt hp
      rw [exponent_bits] at he
      push_cast at he ⊢
      omega
    rw [if_pos hle]
    congr 1
    rw [pow_succ]
    ring

/-- Overflow of `detail::exp2`: one doubling past the exponent range the
result becomes positive infinity and stays there. -/
theorem exp2_posInf (fmt : FloatFmt) (hp : 1 ≤ fmt.prec)
    (hE : 1 ≤ fmt.max_exponent) (e : ℕ) (he : exponent_bits fmt < e) :
    exp2 fmt e = .posInf := by
  induction e with
  | zero =>
    exfalso
    rw [exponent_bits] at he
    push_cast at he
    omega
  | succ n ih =>
    by_cases hn : exponent_bits fmt < n
    · rw [exp2, ih hn]
      simp [mulTwo]
    · have hn2 : (n : ℤ) ≤ exponent_bits fmt := by omega
      rw [exp2, exp2_eq_pow fmt hp n hn2]
      simp only [mulTwo]
      have hgt : ¬ |2 * (2 : ℚ) ^ n| ≤ fmt.maxFinite := by
        rw [abs_of_pos (by positivity), not_le]
        have he2 : (n : ℤ) + 1 = fmt.max_exponent := by
          rw [exponent_bits] at he hn
          omega
        calc fmt.maxFinite < (2 : ℚ) ^ fmt.max_exponent := maxFinite_lt_two_zpow fmt
          _ = 2 * (2 : ℚ) ^ n := by
              rw [← he2, zpow_add₀ (two_ne_zero : (2 : ℚ) ≠ 0), zpow_one, zpow_natCast]
              ring
      rw [if_neg hgt, if_neg (not_lt.mpr (by positivity : (0 : ℚ) ≤ 2 ^ n))]

/-- In the supported case the lower bound evaluates to the exact negated power
of two for signed destinations and to zero for unsigned ones. -/
theorem lower_bound_eq (t : IntDesc) (fmt : FloatFmt)
    (hb : (t.bits : ℤ) ≤ exponent_bits fmt) (hp : 1 ≤ fmt.prec) :
    lower_bound_inclusive t fmt
      = some (.finite (if t.signed then -((2 : ℚ) ^ t.bits) else 0)) := by
  rw [lower_bound_inclusive]
  cases hs : t.signed with
  | false => simp
  | true =>
    simp only [if_true, if_pos hb]
    rw [exp2_eq_pow fmt hp t.bits hb]
    simp only [fneg]
    rw [if_neg (by positivity : ¬ ((2 : ℚ) ^ t.bits = 0))]

/-- In the supported case the upper bound evaluates to the exact power of
two. -/
theorem upper_bound_eq (t : IntDesc) (fmt : FloatFmt)
    (hb : (t.bits : ℤ) ≤ exponent_bits fmt) (hp : 1 ≤ fmt.prec) :
    upper_bound_exclusive t fmt = some (.finite ((2 : ℚ) ^ t.bits)) := by
  rw [upper_bound_exclusive, if_pos hb, exp2_eq_pow fmt hp t.bits hb]

/-- Truncation of an integer is the integer itself. -/
theorem qtrunc_intCast (n : ℤ) : qtrunc (n : ℚ) = n := by
  unfold qtrunc
  split_ifs <;> simp

/-- Truncation toward zero is monotone. -/
theorem qtrunc_mono {q r : ℚ} (h : q ≤ r) : qtrunc q ≤ qtrunc r := by
  unfold qtrunc
  split_ifs with h1 h2 h2
  · exact Int.floor_le_floor h
  · exact absurd (h1.trans h) h2
  · refine (Int.ceil_le.mpr ?_).trans (Int.floor_nonneg.mpr h2)
    push_cast
    linarith [not_le.mp h1]
  · exact Int.ceil_le_ceil h

/-- Truncation does not drop below an integer lower bound. -/
theorem le_qtrunc {n : ℤ} {q : ℚ} (h : (n : ℚ) ≤ q) : n ≤ qtrunc q :=
  (qtrunc_intCast n) ▸ qtrunc_mono h

/-- Truncation stays strictly below a positive integer strict upper bound. -/
theorem qtrunc_lt {n : ℤ} {q : ℚ} (hn : 0 < n) (h : q < (n : ℚ)) :
    qtrunc q < n := by
  unfold qtrunc
  split_ifs with h1
  · exact Int.floor_lt.mpr h
  · refine (Int.ceil_le.mpr ?_).trans_lt hn
    push_cast
    linarith [not_le.mp h1]

/-- The `is_nan` test is false on every value other than not-a-number. -/
theorem is_nan_iff (v : FVal) : is_nan v = true ↔ v = .nan := by
  cases v <;> simp [is_nan, fne, feq]

/-- The `is_nan` test is false on finite values. -/
theorem is_nan_finite (q : ℚ) : is_nan (.finite q) = false := by
  simp [is_nan, fne, feq]

/-- The destination minimum, cast to the source rationals, written with the
same shape as the lower bound. -/
theorem min_cast (t : IntDesc) :
    ((t.min : ℤ) : ℚ) = if t.signed then -((2 : ℚ) ^ t.bits) else 0 := by
  rw [IntDesc.min]
  split_ifs <;> push_cast <;> ring

/-- Evaluation of `clamp_cast` on a finite operand, for a supported type
pair: first the comparison against the lower bound, then against the upper
bound, otherwise truncation toward zero (which is then in range, so the
truncating conversion is defined). -/
theorem clamp_cast_finite (t : IntDesc) (fmt : FloatFmt)
    (hb : (t.bits : ℤ) ≤ exponent_bits fmt) (hp : 1 ≤ fmt.prec) (q : ℚ) :
    clamp_cast t fmt (.finite q)
      = some (if q < (if t.signed then -((2 : ℚ) ^ t.bits) else 0) then t.min
          else if (2 : ℚ) ^ t.bits ≤ q then t.max else qtrunc q) := by
  rw [clamp_cast, lower_bound_eq t fmt hb hp, upper_bound_eq t fmt hb hp]
  simp only [is_nan_finite, Bool.false_eq_true, if_false, flt, fge, fle,
    decide_eq_true_eq]
  by_cases h1 : q < (if t.signed then -((2 : ℚ) ^ t.bits) else 0)
  · simp only [if_pos h1]
  · simp only [if_neg h1]
    by_cases h2 : (2 : ℚ) ^ t.bits ≤ q
    · simp only [if_pos h2]
    · simp only [if_neg h2]
      have hlo : ((t.min : ℤ) : ℚ) ≤ q := by rw [min_cast]; exact not_lt.mp h1
      have hmin : t.min ≤ qtrunc q := le_qtrunc hlo
      have hmax : qtrunc q ≤ t.max := by
        rw [IntDesc.max]
        have hq2 : q < ((2 ^ t.bits : ℤ) : ℚ) := by push_cast; exact not_le.mp h2
        have h3 := qtrunc_lt (by positivity : (0 : ℤ) < 2 ^ t.bits) hq2
        omega
      simp only [static_cast, if_pos (And.intro hmin hmax)]

/-- The lower bound expression is never positive. -/
theorem lbq_nonpos (t : IntDesc) :
    (if t.signed then -((2 : ℚ) ^ t.bits) else 0) ≤ 0 := by
  split_ifs
  · simp only [neg_nonpos]
    positivity
  · exact le_refl 0

/-- The destination minimum never exceeds the destination maximum. -/
theorem intDesc_min_le_max (t : IntDesc) : t.min ≤ t.max := by
  rw [IntDesc.min, IntDesc.max]
  have h : (0 : ℤ) < 2 ^ t.bits := by positivity
  split_ifs <;> omega

/-- The cast returns zero on not-a-number input. -/
theorem clamp_cast_nan (t : IntDesc) (fmt : FloatFmt)
    (hb : (t.bits : ℤ) ≤ exponent_bits fmt) (hp : 1 ≤ fmt.prec) :
    clamp_cast t fmt .nan = some 0 := by
  rw [clamp_cast, lower_bound_eq t fmt hb hp, upper_bound_eq t fmt hb hp]
  simp [is_nan, fne, feq]

/-- The cast returns the destination maximum on positive infinity. -/
theorem clamp_cast_posInf (t : IntDesc) (fmt : FloatFmt)
    (hb : (t.bits : ℤ) ≤ exponent_bits fmt) (hp : 1 ≤ fmt.prec) :
    clamp_cast t fmt .posInf = some t.max := by
  rw [clamp_cast, lower_bound_eq t fmt hb hp, upper_bound_eq t fmt hb hp]
  simp [is_nan, fne, feq, flt, fge, fle]

/-- The cast returns the destination minimum on negative infinity. -/
theorem clamp_cast_negInf (t : IntDesc) (fmt : FloatFmt)
    (hb : (t.bits : ℤ) ≤ exponent_bits fmt) (hp : 1 ≤ fmt.prec) :
    clamp_cast t fmt .negInf = some t.min := by
  rw [clamp_cast, lower_bound_eq t fmt hb hp, upper_bound_eq t fmt hb hp]
  simp [is_nan, fne, feq, flt]

/-- On negative zero neither clamp fires. -/
theorem negZero_tests (t : IntDesc) :
    flt .negZero (.finite (if t.signed then -((2 : ℚ) ^ t.bits) else 0)) = false ∧
    fge .negZero (.finite ((2 : ℚ) ^ t.bits)) = false := by
  constructor
  · simp only [flt, decide_eq_false_iff_not, not_lt]
    exact lbq_nonpos t
  · simp only [fge, fle, decide_eq_false_iff_not, not_le]
    positivity

/-- The cast returns zero on negative zero, through the truncation branch. -/
theorem clamp_cast_negZero (t : IntDesc) (fmt : FloatFmt)
    (hb : (t.bits : ℤ) ≤ exponent_bits fmt) (hp : 1 ≤ fmt.prec) :
    clamp_cast t fmt .negZero = some 0 := by
  rw [clamp_cast, lower_bound_eq t fmt hb hp, upper_bound_eq t fmt hb hp]
  obtain ⟨h1, h2⟩ := negZero_tests t
  simp [is_nan, fne, feq, h1, h2, static_cast]

/-- The branch taken on negative zero is the truncating conversion. -/
theorem clamp_branch_negZero (t : IntDesc) (fmt : FloatFmt)
    (hb : (t.bits : ℤ) ≤ exponent_bits fmt) (hp : 1 ≤ fmt.prec) :
    clamp_branch t fmt .negZero = some .truncate := by
  rw [clamp_branch, lower_bound_eq t fmt hb hp, upper_bound_eq t fmt hb hp]
  obtain ⟨h1, h2⟩ := negZero_tests t
  simp [is_nan, fne, feq, h1, h2]

/-- Whenever the decision chain reaches its final branch, the result of the
cast is the result of the native truncating conversion. -/
theorem clamp_branch_truncate (t : IntDesc) (fmt : FloatFmt) (v : FVal)
    (h : clamp_branch t fmt v = some .truncate) :
    clamp_cast t fmt v = static_cast t v := by
  rw [clamp_branch] at h
  rw [clamp_cast]
  cases hlo : lower_bound_inclusive t fmt with
  | none => rw [hlo] at h; simp at h
  | some lo =>
    cases hup : upper_bound_exclusive t fmt with
    | none => rw [hlo, hup] at h; simp at h
    | some hi =>
      rw [hlo, hup] at h
      simp only at h ⊢
      split_ifs at h ⊢ <;> simp_all

/-- The lower bound of the `uint8_t`, single-precision pairing is zero. -/
theorem lb_u8 : lower_bound_inclusive u8 floatFmt = some (.finite 0) := by
  rw [lower_bound_eq u8 floatFmt (by decide) (by decide)]
  simp [u8]

/-- The upper bound of the `uint8_t`, single-precision pairing is 256. -/
theorem ub_u8 : upper_bound_exclusive u8 floatFmt = some (.finite 256) := by
  rw [upper_bound_eq u8 floatFmt (by decide) (by decide)]
  norm_num [u8]

/-- The bounds of the `int8_t`, single-precision pairing are -128 and 128. -/
theorem bounds_i8 :
    lower_bound_inclusive i8 floatFmt = some (.finite (-128)) ∧
      upper_bound_exclusive i8 floatFmt = some (.finite 128) := by
  constructor
  · rw [lower_bound_eq i8 floatFmt (by decide) (by decide)]
    norm_num [i8]
  · rw [upper_bound_eq i8 floatFmt (by decide) (by decide)]
    norm_num [i8]

/-- C2: Identity-on-range law.  For a supported type pair and a finite value
between the inclusive lower bound and the exclusive upper bound, the cast
returns the value truncated toward zero, and that truncation lies within the
destination range. -/
theorem claim_C2 (t : IntDesc) (fmt : FloatFmt)
    (hb : (t.bits : ℤ) ≤ exponent_bits fmt) (hp : 1 ≤ fmt.prec)
    (q lq uq : ℚ)
    (hlb : lower_bound_inclusive t fmt = some (.finite lq))
    (hub : upper_bound_exclusive t fmt = some (.finite uq))
    (hql : lq ≤ q) (hqu : q < uq) :
    clamp_cast t fmt (.finite q) = some (qtrunc q) ∧
      t.min ≤ qtrunc q ∧ qtrunc q ≤ t.max := by
  rw [lower_bound_eq t fmt hb hp] at hlb
  rw [upper_bound_eq t fmt hb hp] at hub
  injection hlb with hlb
  injection hlb with hlb
  injection hub with hub
  injection hub with hub
  subst hlb
  subst hub
  have h1 : ¬ q < (if t.signed then -((2 : ℚ) ^ t.bits) else 0) := not_lt.mpr hql
  have h2 : ¬ (2 : ℚ) ^ t.bits ≤ q := not_le.mpr hqu
  refine ⟨?_, le_qtrunc (by rw [min_cast]; exact hql), ?_⟩
  · rw [clamp_cast_finite t fmt hb hp q, if_neg h1, if_neg h2]
  · rw [IntDesc.max]
    have hq2 : q < ((2 ^ t.bits : ℤ) : ℚ) := by push_cast; exact hqu
    have h3 := qtrunc_lt (by positivity : (0 : ℤ) < 2 ^ t.bits) hq2
    omega

/-- Witness for C2 at the concrete input 5/2 into `uint8_t`. -/
theorem claim_C2_witness :
    clamp_cast u8 floatFmt (.finite (5 / 2)) = some (qtrunc (5 / 2)) ∧
      u8.min ≤ qtrunc (5 / 2) ∧ qtrunc (5 / 2) ≤ u8.max :=
  claim_C2 u8 floatFmt (by decide) (by decide) (5 / 2) 0 256 lb_u8 ub_u8
    (by norm_num) (by norm_num)

/-- C3: Not-a-number law.  The `is_nan` predicate is true exactly on
not-a-number (in particular false on both infinities and all finite values),
and the cast maps not-a-number to zero for every supported destination. -/
theorem claim_C3 (t : IntDesc) (fmt : FloatFmt) (v : FVal)
    (hb : (t.bits : ℤ) ≤ exponent_bits fmt) (hp : 1 ≤ fmt.prec) :
    (is_nan v = true ↔ v = .nan) ∧ clamp_cast t fmt .nan = some 0 :=
  ⟨is_nan_iff v, clamp_cast_nan t fmt hb hp⟩

/-- Witness for C3 at positive infinity and `uint8_t`. -/
theorem claim_C3_witness :
    (is_nan .posInf = true ↔ (FVal.posInf : FVal) = .nan) ∧
      clamp_cast u8 floatFmt .nan = some 0 :=
  claim_C3 u8 floatFmt .posInf (by decide) (by decide)

/-- C5: when the source format represents `2^bits` exactly, the upper bound
is exactly `2^bits` and the lower bound is exactly `-2^bits` for signed
destinations and `0` for unsigned ones. -/
theorem claim_C5 (t : IntDesc) (fmt : FloatFmt) (hp : 1 ≤ fmt.prec)
    (hrep : fmt.isRepr ((2 : ℚ) ^ t.bits)) :
    upper_bound_exclusive t fmt = some (.finite ((2 : ℚ) ^ t.bits)) ∧
      lower_bound_inclusive t fmt
        = some (.finite (if t.signed then -((2 : ℚ) ^ t.bits) else 0)) := by
  obtain ⟨habs, -⟩ := hrep
  have h1 : (2 : ℚ) ^ ((t.bits : ℤ)) ≤ fmt.maxFinite := by
    rw [zpow_natCast]
    rwa [abs_of_pos (by positivity)] at habs
  have h2 := h1.trans_lt (maxFinite_lt_two_zpow fmt)
  have hb : (t.bits : ℤ) ≤ exponent_bits fmt := by
    rw [exponent_bits]
    have h3 := (zpow_lt_zpow_iff_right₀ (by norm_num : (1 : ℚ) < 2)).mp h2
    omega
  exact ⟨upper_bound_eq t fmt hb hp, lower_bound_eq t fmt hb hp⟩

/-- Witness for C5 at `int8_t` and single precision. -/
theorem claim_C5_witness :
    upper_bound_exclusive i8 floatFmt = some (.finite 128) ∧
      lower_bound_inclusive i8 floatFmt = some (.finite (-128)) := by
  have hrep : floatFmt.isRepr ((2 : ℚ) ^ i8.bits) := by
    refine ⟨by norm_num [maxFinite_eq, floatFmt, i8], 128, 0, ?_, ?_, ?_⟩
    · norm_num [i8]
    · norm_num [floatFmt]
    · norm_num [floatFmt]
  obtain ⟨h1, h2⟩ := claim_C5 i8 floatFmt (by decide) hrep
  constructor
  · rw [h1]
    norm_num [i8]
  · rw [h2]
    norm_num [i8]

/-- C6: in the branch where the source type cannot represent `2^bits`
(`exponent_bits < bits`, here a 128-bit destination against single
precision), the two bound functions do not produce the intended infinity and
lowest finite value: the source names the numeric-limits member functions
without calling them, so the instantiation is ill-formed, modelled as `none`
rather than the values the specification states. -/
theorem claim_C6 :
    upper_bound_exclusive ⟨false, 128⟩ floatFmt = none ∧
      lower_bound_inclusive ⟨true, 128⟩ floatFmt = none := by
  constructor <;> decide

/-- C8: exactness and overflow of the power-of-two helper: within the
exponent range of the format the result is exactly `2^e`, and past it the
result is positive infinity. -/
theorem claim_C8 (fmt : FloatFmt) (e : ℕ) (hp : 1 ≤ fmt.prec)
    (hE : 1 ≤ fmt.max_exponent) :
    ((e : ℤ) ≤ exponent_bits fmt → exp2 fmt e = .finite ((2 : ℚ) ^ e)) ∧
      (exponent_bits fmt < (e : ℤ) → exp2 fmt e = .posInf) :=
  ⟨fun he => exp2_eq_pow fmt hp e he, fun he => exp2_posInf fmt hp hE e he⟩

/-- Witness for C8 at the largest exact exponent and the first overflowing
one, in single precision. -/
theorem claim_C8_witness :
    exp2 floatFmt 127 = .finite ((2 : ℚ) ^ (127 : ℕ)) ∧
      exp2 floatFmt 128 = .posInf :=
  ⟨(claim_C8 floatFmt 127 (by decide) (by decide)).1 (by decide),
    (claim_C8 floatFmt 128 (by decide) (by decide)).2 (by decide)⟩

/-- C1: Saturation law.  For a supported type pair and any value: if the
value compares greater than or equal to the exclusive upper bound the cast
returns the destination maximum, and if it compares below the inclusive
lower bound the cast returns the destination minimum. -/
theorem claim_C1 (t : IntDesc) (fmt : FloatFmt)
    (hb : (t.bits : ℤ) ≤ exponent_bits fmt) (hp : 1 ≤ fmt.prec)
    (v lb ub : FVal)
    (hlb : lower_bound_inclusive t fmt = some lb)
    (hub : upper_bound_exclusive t fmt = some ub) :
    (fge v ub = true → clamp_cast t fmt v = some t.max) ∧
      (flt v lb = true → clamp_cast t fmt v = some t.min) := by
  rw [lower_bound_eq t fmt hb hp] at hlb
  rw [upper_bound_eq t fmt hb hp] at hub
  injection hlb with hlb
  injection hub with hub
  subst hlb
  subst hub
  constructor
  · intro hge
    cases v with
    | nan => simp [fge, fle] at hge
    | negInf => simp [fge, fle] at hge
    | posInf => exact clamp_cast_posInf t fmt hb hp
    | negZero =>
      exfalso
      simp only [fge, fle, decide_eq_true_eq] at hge
      have h0 : (0 : ℚ) < 2 ^ t.bits := by positivity
      linarith
    | finite q =>
      have hq : (2 : ℚ) ^ t.bits ≤ q := by simpa [fge, fle] using hge
      have hnl : ¬ q < (if t.signed then -((2 : ℚ) ^ t.bits) else 0) := by
        have h0 : (0 : ℚ) < 2 ^ t.bits := by positivity
        have h1 := lbq_nonpos t
        push_neg
        linarith
      rw [clamp_cast_finite t fmt hb hp q, if_neg hnl, if_pos hq]
  · intro hlt
    cases v with
    | nan => simp [flt] at hlt
    | posInf => simp [flt] at hlt
    | negInf => exact clamp_cast_negInf t fmt hb hp
    | negZero =>
      exfalso
      simp only [flt, decide_eq_true_eq] at hlt
      have h1 := lbq_nonpos t
      linarith
    | finite q =>
      have hq : q < (if t.signed then -((2 : ℚ) ^ t.bits) else 0) := by
        simpa [flt] using hlt
      rw [clamp_cast_finite t fmt hb hp q, if_pos hq]

/-- Witness for C1: 200.0 into `int8_t` saturates to 127, -200.0 to -128. -/
theorem claim_C1_witness :
    clamp_cast i8 floatFmt (.finite 200) = some i8.max ∧
      clamp_cast i8 floatFmt (.finite (-200)) = some i8.min := by
  refine ⟨(claim_C1 i8 floatFmt (by decide) (by decide) (.finite 200)
      (.finite (-128)) (.finite 128) bounds_i8.1 bounds_i8.2).1 ?_,
    (claim_C1 i8 floatFmt (by decide) (by decide) (.finite (-200))
      (.finite (-128)) (.finite 128) bounds_i8.1 bounds_i8.2).2 ?_⟩
  · simp only [fge, fle, decide_eq_true_eq]
    norm_num
  · simp only [flt, decide_eq_true_eq]
    norm_num

/-- C4: Totality.  For a supported type pair the cast returns a defined value
on every input (finite, infinite, negative zero, or not-a-number), and
whenever the decision chain reaches the final truncating conversion that
conversion itself is defined (its result is representable). -/
theorem claim_C4 (t : IntDesc) (fmt : FloatFmt)
    (hb : (t.bits : ℤ) ≤ exponent_bits fmt) (hp : 1 ≤ fmt.prec) (v : FVal) :
    (clamp_cast t fmt v).isSome = true ∧
      (clamp_branch t fmt v = some .truncate →
        (static_cast t v).isSome = true) := by
  have hs : (clamp_cast t fmt v).isSome = true := by
    cases v with
    | nan => rw [clamp_cast_nan t fmt hb hp]; rfl
    | posInf => rw [clamp_cast_posInf t fmt hb hp]; rfl
    | negInf => rw [clamp_cast_negInf t fmt hb hp]; rfl
    | negZero => rw [clamp_cast_negZero t fmt hb hp]; rfl
    | finite q => rw [clamp_cast_finite t fmt hb hp q]; rfl
  refine ⟨hs, fun h => ?_⟩
  rw [← clamp_branch_truncate t fmt v h]
  exact hs

/-- Witness for C4 at the in-range input 5/2 into `uint8_t`. -/
theorem claim_C4_witness :
    (clamp_cast u8 floatFmt (.finite (5 / 2))).isSome = true ∧
      (static_cast u8 (.finite (5 / 2))).isSome = true := by
  have h := claim_C4 u8 floatFmt (by decide) (by decide) (.finite (5 / 2))
  refine ⟨h.1, h.2 ?_⟩
  rw [clamp_branch, lb_u8, ub_u8]
  simp only [is_nan_finite, Bool.false_eq_true, if_false, flt, fge, fle,
    decide_eq_true_eq]
  norm_num

/-- C7: Monotonicity.  On finite inputs the cast is non-decreasing for every
supported type pair. -/
theorem claim_C7 (t : IntDesc) (fmt : FloatFmt)
    (hb : (t.bits : ℤ) ≤ exponent_bits fmt) (hp : 1 ≤ fmt.prec)
    (q r : ℚ) (hqr : q ≤ r) (a b : ℤ)
    (ha : clamp_cast t fmt (.finite q) = some a)
    (hbr : clamp_cast t fmt (.finite r) = some b) : a ≤ b := by
  rw [clamp_cast_finite t fmt hb hp q] at ha
  rw [clamp_cast_finite t fmt hb hp r] at hbr
  injection ha with ha
  injection hbr with hbr
  subst ha
  subst hbr
  have hL0 : (if t.signed then -((2 : ℚ) ^ t.bits) else 0) ≤ 0 := lbq_nonpos t
  have hU0 : (0 : ℚ) < 2 ^ t.bits := by positivity
  have hmm := intDesc_min_le_max t
  have hmax_tr : ∀ s : ℚ, ¬ (2 : ℚ) ^ t.bits ≤ s → qtrunc s ≤ t.max := by
    intro s hs
    rw [IntDesc.max]
    have hs2 : s < ((2 ^ t.bits : ℤ) : ℚ) := by push_cast; exact not_le.mp hs
    have h3 := qtrunc_lt (by positivity : (0 : ℤ) < 2 ^ t.bits) hs2
    omega
  have hmin_tr : ∀ s : ℚ, ¬ s < (if t.signed then -((2 : ℚ) ^ t.bits) else 0) →
      t.min ≤ qtrunc s := fun s hs => le_qtrunc (by rw [min_cast]; exact not_lt.mp hs)
  by_cases c1 : q < (if t.signed then -((2 : ℚ) ^ t.bits) else 0)
  · rw [if_pos c1]
    by_cases c3 : r < (if t.signed then -((2 : ℚ) ^ t.bits) else 0)
    · rw [if_pos c3]
    · rw [if_neg c3]
      by_cases c4 : (2 : ℚ) ^ t.bits ≤ r
      · rw [if_pos c4]
        exact hmm
      · rw [if_neg c4]
        exact hmin_tr r c3
  · rw [if_neg c1]
    by_cases c2 : (2 : ℚ) ^ t.bits ≤ q
    · rw [if_pos c2]
      have c3 : ¬ r < (if t.signed then -((2 : ℚ) ^ t.bits) else 0) := by
        push_neg
        linarith
      have c4 : (2 : ℚ) ^ t.bits ≤ r := c2.trans hqr
      rw [if_neg c3, if_pos c4]
    · rw [if_neg c2]
      by_cases c3 : r < (if t.signed then -((2 : ℚ) ^ t.bits) else 0)
      · exact absurd (lt_of_le_of_lt hqr c3) c1
      · rw [if_neg c3]
        by_cases c4 : (2 : ℚ) ^ t.bits ≤ r
        · rw [if_pos c4]
          exact hmax_tr q c2
        · rw [if_neg c4]
          exact qtrunc_mono hqr

/-- Witness for C7 at 1.0 and 300.0 into `uint8_t` (results 1 and 255). -/
theorem claim_C7_witness : (1 : ℤ) ≤ 255 :=
  claim_C7 u8 floatFmt (by decide) (by decide) 1 300 (by norm_num) 1 255
    (by rw [clamp_cast_finite u8 floatFmt (by decide) (by decide)]
        norm_num [u8, qtrunc])
    (by rw [clamp_cast_finite u8 floatFmt (by decide) (by decide)]
        norm_num [u8, IntDesc.max])

/-- C10: infinities saturate to the destination extremes (with minimum zero
for unsigned destinations), and negative zero converts to zero through the
truncating-conversion branch rather than the lower-bound clamp. -/
theorem claim_C10 (t : IntDesc) (fmt : FloatFmt)
    (hb : (t.bits : ℤ) ≤ exponent_bits fmt) (hp : 1 ≤ fmt.prec) :
    clamp_cast t fmt .posInf = some t.max ∧
      clamp_cast t fmt .negInf = some t.min ∧
      (t.signed = false → t.min = 0) ∧
      clamp_cast t fmt .negZero = some 0 ∧
      clamp_branch t fmt .negZero = some .truncate :=
  ⟨clamp_cast_posInf t fmt hb hp, clamp_cast_negInf t fmt hb hp,
    fun hs => by simp [IntDesc.min, hs],
    clamp_cast_negZero t fmt hb hp, clamp_branch_negZero t fmt hb hp⟩

/-- Witness for C10 at `uint8_t` and single precision. -/
theorem claim_C10_witness :
    clamp_cast u8 floatFmt .posInf = some u8.max ∧
      clamp_cast u8 floatFmt .negInf = some u8.min ∧
      (u8.signed = false → u8.min = 0) ∧
      clamp_cast u8 floatFmt .negZero = some 0 ∧
      clamp_branch u8 floatFmt .negZero = some .truncate :=
  claim_C10 u8 floatFmt (by decide) (by decide)

/-- A single-precision mantissa (at most 24 bits) scaled by a power of two
that stays strictly below `2^63` in fact stays at or below `2^63 - 2^39`. -/
theorem mantissa_below_pow63 {n e : ℤ} (hn1 : 1 ≤ n) (hn2 : n ≤ 2 ^ 24 - 1)
    (hlt : (n : ℚ) * (2 : ℚ) ^ e < (2 : ℚ) ^ (63 : ℤ)) :
    (n : ℚ) * (2 : ℚ) ^ e ≤ (2 : ℚ) ^ (63 : ℤ) - (2 : ℚ) ^ (39 : ℤ) := by
  have hpos : (0 : ℚ) < (2 : ℚ) ^ e := zpow_pos two_pos e
  by_cases he : e ≤ 39
  · have h1 : (n : ℚ) ≤ ((2 ^ 24 - 1 : ℤ) : ℚ) := by exact_mod_cast hn2
    have h2 : (2 : ℚ) ^ e ≤ (2 : ℚ) ^ (39 : ℤ) := zpow_le_zpow_right₀ one_le_two he
    have h4 : (0 : ℚ) ≤ ((2 ^ 24 - 1 : ℤ) : ℚ) := by norm_num
    calc (n : ℚ) * (2 : ℚ) ^ e ≤ ((2 ^ 24 - 1 : ℤ) : ℚ) * (2 : ℚ) ^ (39 : ℤ) :=
          mul_le_mul h1 h2 hpos.le h4
      _ = (2 : ℚ) ^ (63 : ℤ) - (2 : ℚ) ^ (39 : ℤ) := by norm_num
  · push_neg at he
    have he62 : e ≤ 62 := by
      by_contra hc
      push_neg at hc
      have h1 : (2 : ℚ) ^ (63 : ℤ) ≤ (2 : ℚ) ^ e :=
        zpow_le_zpow_right₀ one_le_two (by omega)
      have h2 : (1 : ℚ) ≤ (n : ℚ) := by exact_mod_cast hn1
      nlinarith
    have hnlt : (n : ℚ) < (2 : ℚ) ^ ((63 : ℤ) - e) := by
      rw [zpow_sub₀ (two_ne_zero : (2 : ℚ) ≠ 0), lt_div_iff₀ hpos]
      exact hlt
    have hKQ : ((2 ^ (63 - e).toNat : ℤ) : ℚ) = (2 : ℚ) ^ ((63 : ℤ) - e) := by
      push_cast
      rw [← zpow_natCast (2 : ℚ) (63 - e).toNat, Int.toNat_of_nonneg (by omega)]
    have hnK : n ≤ 2 ^ (63 - e).toNat - 1 := by
      have h1 : (n : ℚ) < ((2 ^ (63 - e).toNat : ℤ) : ℚ) := by
        rw [hKQ]
        exact hnlt
      have h2 : n < 2 ^ (63 - e).toNat := by exact_mod_cast h1
      omega
    have hsum : (2 : ℚ) ^ ((63 : ℤ) - e) * (2 : ℚ) ^ e = (2 : ℚ) ^ (63 : ℤ) := by
      rw [← zpow_add₀ (two_ne_zero : (2 : ℚ) ≠ 0)]
      congr 1
      ring
    have h39 : (2 : ℚ) ^ (39 : ℤ) ≤ (2 : ℚ) ^ e :=
      zpow_le_zpow_right₀ one_le_two (by omega)
    have h1 : (n : ℚ) ≤ ((2 ^ (63 - e).toNat : ℤ) : ℚ) - 1 := by
      have h2 : ((2 ^ (63 - e).toNat - 1 : ℤ) : ℚ)
          = ((2 ^ (63 - e).toNat : ℤ) : ℚ) - 1 := by push_cast; ring
      rw [← h2]
      exact_mod_cast hnK
    have h3 : (n : ℚ) * (2 : ℚ) ^ e
        ≤ (((2 ^ (63 - e).toNat : ℤ) : ℚ) - 1) * (2 : ℚ) ^ e :=
      mul_le_mul_of_nonneg_right h1 hpos.le
    have h4 : (((2 ^ (63 - e).toNat : ℤ) : ℚ) - 1) * (2 : ℚ) ^ e
        = (2 : ℚ) ^ (63 : ℤ) - (2 : ℚ) ^ e := by
      rw [sub_mul, one_mul, hKQ, hsum]
    linarith

/-- A single-precision mantissa (at most 24 bits) scaled by a power of two
that lies strictly above `2^63` in fact lies at or above `2^63 + 2^40`. -/
theorem mantissa_above_pow63 {n e : ℤ} (hn1 : 1 ≤ n) (hn2 : n ≤ 2 ^ 24 - 1)
    (hgt : (2 : ℚ) ^ (63 : ℤ) < (n : ℚ) * (2 : ℚ) ^ e) :
    (2 : ℚ) ^ (63 : ℤ) + (2 : ℚ) ^ (40 : ℤ) ≤ (n : ℚ) * (2 : ℚ) ^ e := by
  have hpos : (0 : ℚ) < (2 : ℚ) ^ e := zpow_pos two_pos e
  have he40 : (40 : ℤ) ≤ e := by
    by_contra hc
    push_neg at hc
    have h1 : (n : ℚ) ≤ ((2 ^ 24 - 1 : ℤ) : ℚ) := by exact_mod_cast hn2
    have h2 : (2 : ℚ) ^ e ≤ (2 : ℚ) ^ (39 : ℤ) :=
      zpow_le_zpow_right₀ one_le_two (by omega)
    have h4 : (0 : ℚ) ≤ ((2 ^ 24 - 1 : ℤ) : ℚ) := by norm_num
    have h5 : (n : ℚ) * (2 : ℚ) ^ e ≤ ((2 ^ 24 - 1 : ℤ) : ℚ) * (2 : ℚ) ^ (39 : ℤ) :=
      mul_le_mul h1 h2 hpos.le h4
    have h6 : ((2 ^ 24 - 1 : ℤ) : ℚ) * (2 : ℚ) ^ (39 : ℤ) < (2 : ℚ) ^ (63 : ℤ) := by
      norm_num
    linarith
  have hjQ : ((n * 2 ^ (e - 40).toNat : ℤ) : ℚ) * (2 : ℚ) ^ (40 : ℤ)
      = (n : ℚ) * (2 : ℚ) ^ e := by
    push_cast
    rw [← zpow_natCast (2 : ℚ) (e - 40).toNat, Int.toNat_of_nonneg (by omega),
      mul_assoc, ← zpow_add₀ (two_ne_zero : (2 : ℚ) ≠ 0)]
    have h0 : e - 40 + 40 = e := by ring
    rw [h0]
  have hj23 : (2 : ℚ) ^ (23 : ℤ) < ((n * 2 ^ (e - 40).toNat : ℤ) : ℚ) := by
    have h1 : (2 : ℚ) ^ (63 : ℤ) = (2 : ℚ) ^ (23 : ℤ) * (2 : ℚ) ^ (40 : ℤ) := by
      rw [← zpow_add₀ (two_ne_zero : (2 : ℚ) ≠ 0)]
      norm_num
    have h2 : (0 : ℚ) < (2 : ℚ) ^ (40 : ℤ) := zpow_pos two_pos _
    rw [← hjQ, h1] at hgt
    exact (mul_lt_mul_right h2).mp hgt
  have hjint : 2 ^ 23 + 1 ≤ n * 2 ^ (e - 40).toNat := by
    have h1 : ((2 ^ 23 : ℤ) : ℚ) < ((n * 2 ^ (e - 40).toNat : ℤ) : ℚ) := by
      have h2 : ((2 ^ 23 : ℤ) : ℚ) = (2 : ℚ) ^ (23 : ℤ) := by norm_num
      rw [h2]
      exact hj23
    have h3 : (2 ^ 23 : ℤ) < n * 2 ^ (e - 40).toNat := by exact_mod_cast h1
    omega
  calc (2 : ℚ) ^ (63 : ℤ) + (2 : ℚ) ^ (40 : ℤ)
      = ((2 ^ 23 + 1 : ℤ) : ℚ) * (2 : ℚ) ^ (40 : ℤ) := by norm_num
    _ ≤ ((n * 2 ^ (e - 40).toNat : ℤ) : ℚ) * (2 : ℚ) ^ (40 : ℤ) :=
        mul_le_mul_of_nonneg_right (by exact_mod_cast hjint)
          (zpow_pos two_pos _).le
    _ = (n : ℚ) * (2 : ℚ) ^ e := hjQ

/-- Any single-precision value strictly above `-2^63` is at or above
`-2^63 + 2^39`. -/
theorem repr_ge_of_gt (q : ℚ) (h : floatFmt.isRepr q)
    (hgt : -((2 : ℚ) ^ (63 : ℕ)) < q) :
    -((2 : ℚ) ^ (63 : ℕ)) + (2 : ℚ) ^ (39 : ℕ) ≤ q := by
  have hc63 : (2 : ℚ) ^ (63 : ℤ) = (2 : ℚ) ^ (63 : ℕ) := by norm_num
  have hc39 : (2 : ℚ) ^ (39 : ℤ) = (2 : ℚ) ^ (39 : ℕ) := by norm_num
  obtain ⟨-, m, e, rfl, hm, -⟩ := h
  by_cases h0 : 0 ≤ (m : ℚ) * (2 : ℚ) ^ e
  · have h39 : (2 : ℚ) ^ (39 : ℕ) ≤ (2 : ℚ) ^ (63 : ℕ) :=
      pow_le_pow_right₀ one_le_two (by norm_num)
    linarith
  · push_neg at h0
    have hm0 : m < 0 := by
      rcases lt_trichotomy m 0 with h | h | h
      · exact h
      · exfalso
        subst h
        simp at h0
      · exfalso
        have h1 : (0 : ℚ) < (m : ℚ) * (2 : ℚ) ^ e :=
          mul_pos (by exact_mod_cast h) (zpow_pos two_pos e)
        linarith
    have hn1 : (1 : ℤ) ≤ -m := by omega
    have hn2 : -m ≤ 2 ^ 24 - 1 := by
      have h1 := hm
      simp only [floatFmt] at h1
      omega
    have hlt : ((-m : ℤ) : ℚ) * (2 : ℚ) ^ e < (2 : ℚ) ^ (63 : ℤ) := by
      rw [hc63]
      push_cast
      linarith
    have key := mantissa_below_pow63 hn1 hn2 hlt
    rw [hc63, hc39] at key
    have h2 : ((-m : ℤ) : ℚ) * (2 : ℚ) ^ e = -((m : ℚ) * (2 : ℚ) ^ e) := by
      push_cast
      ring
    rw [h2] at key
    linarith

/-- Any single-precision value strictly below `-2^63` is at or below
`-2^63 - 2^40`. -/
theorem repr_le_of_lt (q : ℚ) (h : floatFmt.isRepr q)
    (hlt : q < -((2 : ℚ) ^ (63 : ℕ))) :
    q ≤ -((2 : ℚ) ^ (63 : ℕ)) - (2 : ℚ) ^ (40 : ℕ) := by
  have hc63 : (2 : ℚ) ^ (63 : ℤ) = (2 : ℚ) ^ (63 : ℕ) := by norm_num
  have hc40 : (2 : ℚ) ^ (40 : ℤ) = (2 : ℚ) ^ (40 : ℕ) := by norm_num
  obtain ⟨-, m, e, rfl, hm, -⟩ := h
  have hpow : (0 : ℚ) < (2 : ℚ) ^ (63 : ℕ) := by positivity
  have hm0 : m < 0 := by
    rcases lt_trichotomy m 0 with h | h | h
    · exact h
    · exfalso
      subst h
      simp at hlt
      linarith
    · exfalso
      have h1 : (0 : ℚ) < (m : ℚ) * (2 : ℚ) ^ e :=
        mul_pos (by exact_mod_cast h) (zpow_pos two_pos e)
      linarith
  have hn1 : (1 : ℤ) ≤ -m := by omega
  have hn2 : -m ≤ 2 ^ 24 - 1 := by
    have h1 := hm
    simp only [floatFmt] at h1
    omega
  have hgt : (2 : ℚ) ^ (63 : ℤ) < ((-m : ℤ) : ℚ) * (2 : ℚ) ^ e := by
    rw [hc63]
    push_cast
    linarith
  have key := mantissa_above_pow63 hn1 hn2 hgt
  rw [hc63, hc40] at key
  have h2 : ((-m : ℤ) : ℚ) * (2 : ℚ) ^ e = -((m : ℚ) * (2 : ℚ) ^ e) := by
    push_cast
    ring
  rw [h2] at key
  linarith

/-- The value `-2^63 + 2^39` is representable in single precision. -/
theorem repr_above_val :
    floatFmt.isRepr (-((2 : ℚ) ^ (63 : ℕ)) + (2 : ℚ) ^ (39 : ℕ)) := by
  refine ⟨?_, -(2 ^ 24 - 1), 39, ?_, by decide, by decide⟩
  · rw [maxFinite_eq]
    norm_num [floatFmt]
  · norm_num

/-- The value `-2^63 - 2^40` is representable in single precision. -/
theorem repr_below_val :
    floatFmt.isRepr (-((2 : ℚ) ^ (63 : ℕ)) - (2 : ℚ) ^ (40 : ℕ)) := by
  refine ⟨?_, -(2 ^ 23 + 1), 40, ?_, by decide, by decide⟩
  · rw [maxFinite_eq]
    norm_num [floatFmt]
  · norm_num

/-- The single-precision value immediately above `-2^63` is `-2^63 + 2^39`. -/
theorem nextAbove_pow63 :
    nextAbove floatFmt (-((2 : ℚ) ^ (63 : ℕ)))
      (-((2 : ℚ) ^ (63 : ℕ)) + (2 : ℚ) ^ (39 : ℕ)) :=
  ⟨repr_above_val, by norm_num, repr_ge_of_gt⟩

/-- The single-precision value immediately below `-2^63` is `-2^63 - 2^40`. -/
theorem nextBelow_pow63 :
    nextBelow floatFmt (-((2 : ℚ) ^ (63 : ℕ)))
      (-((2 : ℚ) ^ (63 : ℕ)) - (2 : ℚ) ^ (40 : ℕ)) :=
  ⟨repr_below_val, by norm_num, repr_le_of_lt⟩

/-- Evaluation of the cast into `int64_t` at `-2^63`. -/
theorem clamp_i64_at_bound :
    clamp_cast i64 floatFmt (.finite (-((2 : ℚ) ^ (63 : ℕ)))) = some i64.min := by
  rw [clamp_cast_finite i64 floatFmt (by decide) (by decide)]
  have hq : (-((2 : ℚ) ^ (63 : ℕ))) = (((-(2 ^ 63) : ℤ)) : ℚ) := by push_cast; ring
  rw [if_neg (by norm_num [i64]), if_neg (by norm_num [i64]), hq, qtrunc_intCast]
  norm_num [i64, IntDesc.min]

/-- Evaluation of the cast into `int64_t` just below `-2^63`. -/
theorem clamp_i64_below_bound :
    clamp_cast i64 floatFmt
      (.finite (-((2 : ℚ) ^ (63 : ℕ)) - (2 : ℚ) ^ (40 : ℕ))) = some i64.min := by
  rw [clamp_cast_finite i64 floatFmt (by decide) (by decide)]
  rw [if_pos (by norm_num [i64])]

/-- Evaluation of the cast into `int64_t` just above `-2^63`. -/
theorem clamp_i64_above_bound :
    clamp_cast i64 floatFmt
      (.finite (-((2 : ℚ) ^ (63 : ℕ)) + (2 : ℚ) ^ (39 : ℕ)))
      = some (-(2 ^ 63) + 2 ^ 39) := by
  rw [clamp_cast_finite i64 floatFmt (by decide) (by decide)]
  have hq : (-((2 : ℚ) ^ (63 : ℕ)) + (2 : ℚ) ^ (39 : ℕ))
      = (((-(2 ^ 63) + 2 ^ 39 : ℤ)) : ℚ) := by push_cast; ring
  rw [if_neg (by norm_num [i64]), if_neg (by norm_num [i64]), hq, qtrunc_intCast]

/-- C9 counterexample: the single-precision value immediately above `-2^63`
is `-2^63 + 2^39 = -2^63 + 2^(63-24)`; the cast returns it unchanged, and
that differs from the value `-2^63 + 2^(63-23)` asserted by the claim. -/
theorem claim_C9_counterexample :
    nextAbove floatFmt (-((2 : ℚ) ^ (63 : ℕ)))
        (-((2 : ℚ) ^ (63 : ℕ)) + (2 : ℚ) ^ (39 : ℕ)) ∧
      clamp_cast i64 floatFmt
          (.finite (-((2 : ℚ) ^ (63 : ℕ)) + (2 : ℚ) ^ (39 : ℕ)))
        = some (-(2 ^ 63) + 2 ^ 39) ∧
      (-(2 ^ 63) + 2 ^ 39 : ℤ) ≠ -(2 ^ 63) + 2 ^ (63 - 23) :=
  ⟨nextAbove_pow63, clamp_i64_above_bound, by norm_num⟩

/-- C9 (amended): at the `int64_t` boundary `-2^63` in single precision: the
value exactly `-2^63` maps to the destination minimum; the representable
value immediately below `-2^63`, namely `-2^63 - 2^40`, also maps to the
minimum; and the representable value immediately above `-2^63`, namely
`-2^63 + 2^(63-24)`, maps to itself, strictly greater than the minimum. -/
theorem claim_C9 :
    clamp_cast i64 floatFmt (.finite (-((2 : ℚ) ^ (63 : ℕ)))) = some i64.min ∧
      nextBelow floatFmt (-((2 : ℚ) ^ (63 : ℕ)))
        (-((2 : ℚ) ^ (63 : ℕ)) - (2 : ℚ) ^ (40 : ℕ)) ∧
      clamp_cast i64 floatFmt
          (.finite (-((2 : ℚ) ^ (63 : ℕ)) - (2 : ℚ) ^ (40 : ℕ))) = some i64.min ∧
      nextAbove floatFmt (-((2 : ℚ) ^ (63 : ℕ)))
        (-((2 : ℚ) ^ (63 : ℕ)) + (2 : ℚ) ^ (39 : ℕ)) ∧
      clamp_cast i64 floatFmt
          (.finite (-((2 : ℚ) ^ (63 : ℕ)) + (2 : ℚ) ^ (39 : ℕ)))
        = some (-(2 ^ 63) + 2 ^ (63 - 24)) ∧
      i64.min < -(2 ^ 63) + 2 ^ (63 - 24) := by
  refine ⟨clamp_i64_at_bound, nextBelow_pow63, clamp_i64_below_bound,
    nextAbove_pow63, ?_, ?_⟩
  · rw [clamp_i64_above_bound]
  · norm_num [i64, IntDesc.min]
